import Mathlib

/-!
Verification of the RoR retrieval-augmented-generation core.

The development embeds the core of the repository (the `RAGSystem` in
`src/rag_gemini/src/utils/gemini.rs` and the `process_query` pipeline in
`src/rag_gemini/src/lib.rs`) as executable Lean definitions and proves the
specified properties about them.

Modelling conventions:
- Strings are modelled as `List Char`, i.e. at Unicode-scalar (character)
  granularity; index arithmetic that the Rust code performs on byte indices
  is performed here on character indices (the two coincide on ASCII data,
  which is the granularity at which the specification speaks).
- Case folding is modelled with `Char.toLower`, whitespace with
  `Char.isWhitespace`; the same character class is used uniformly for the
  regex `\s+`, `split_whitespace` and `trim`, as in the source.
- The file system and the in-memory document store are modelled as partial
  maps `String -> Option (List Char)`.
- External effects the code merely consumes (the PDF text extractor, file
  creation and write success, the chat backend) are passed in as explicit
  oracle arguments.
- The claims about window placement and window content are modelled at
  character granularity with `sliceChecked`. The safety of the slice
  `content[start..end]` itself is byte-sensitive in Rust: `retrieve` finds
  byte indices in the lower-cased content and slices the ORIGINAL content
  with them, which panics when an index is not a character boundary of the
  original content or the range is otherwise improper. The byte-level
  model (`utf8Len`, `isCharBoundary`, `byteFind`, `retrieveBytes`)
  reproduces that byte arithmetic over the UTF-8 sizes of the characters
  and exhibits the panic the specification asserts absent.
-/

/-- Character-level model of `str::to_lowercase` (ASCII folding). The real
`to_lowercase` can also change the byte length of non-ASCII characters;
the byte-level development below is exercised on content where the folding
is the identity on every character, so all positions align exactly with
the Rust execution. -/
def toLowerStr (s : List Char) : List Char := s.map Char.toLower

/-- Accumulator version of `str::split_whitespace`: splits on whitespace,
dropping empty chunks. `acc` holds the current in-progress token, reversed. -/
def splitWsAux : List Char → List Char → List (List Char)
  | [], acc => if acc.isEmpty then [] else [acc.reverse]
  | c :: rest, acc =>
    if c.isWhitespace then
      if acc.isEmpty then splitWsAux rest []
      else acc.reverse :: splitWsAux rest []
    else splitWsAux rest (c :: acc)

/-- Model of `str::split_whitespace` collected into a list. -/
def splitWs (s : List Char) : List (List Char) := splitWsAux s []

/-- Model of `str::find(&str)`: index of the first (lowest-index) occurrence
of `pat` as a contiguous subsequence of `s`, or `none`. The empty pattern is
found at index 0, as in Rust. -/
def findSub (s pat : List Char) : Option Nat :=
  if pat.isPrefixOf s then some 0
  else
    match s with
    | [] => none
    | _ :: rest => (findSub rest pat).map (fun i => i + 1)

/-- Model of the regex replacement `\s+` -> " " from `clean_text`: every
maximal run of whitespace characters is replaced by a single space. -/
def collapseWs : List Char → List Char
  | [] => []
  | [c] => if c.isWhitespace then [' '] else [c]
  | c :: d :: rest =>
    if c.isWhitespace then
      if d.isWhitespace then collapseWs (d :: rest)
      else ' ' :: collapseWs (d :: rest)
    else c :: collapseWs (d :: rest)

/-- Model of `str::trim`: drop leading and trailing whitespace. -/
def trimStr (s : List Char) : List Char :=
  ((s.dropWhile Char.isWhitespace).reverse.dropWhile Char.isWhitespace).reverse

/-- `RAGSystem::clean_text`: collapse whitespace runs, then trim. -/
def clean_text (s : List Char) : List Char := trimStr (collapseWs s)

/-- Character-granularity model of the slice `s[start..stop]`: `none` when
the range is improper at character level. The byte-level behaviour of the
Rust slice, including its character-boundary requirement on the original
content, is modelled separately by `retrieveBytes` below. -/
def sliceChecked (s : List Char) (start stop : Nat) : Option (List Char) :=
  if start ≤ stop ∧ stop ≤ s.length then some ((s.drop start).take (stop - start))
  else none

/-- The context window of `RAGSystem::retrieve` around a match of length
`klen` at index `p`: 300 characters of slack on either side, the start
saturating at 0 (`saturating_sub`) and the end clamped to the content
length (`min`). -/
def windowOf (content : List Char) (p klen : Nat) : Option (List Char) :=
  sliceChecked content (p - 300) (min (p + klen + 300) content.length)

/-- The keyword loop of `RAGSystem::retrieve`: scan the keywords in query
order; the first keyword found in `contentLower` yields its window over the
original-case `content`; if none is found the result is the empty string. -/
def searchKeywords (content contentLower : List Char) :
    List (List Char) → Option (List Char)
  | [] => some []
  | k :: ks =>
    match findSub contentLower k with
    | some p => windowOf content p k.length
    | none => searchKeywords content contentLower ks

/-- The pure core of `RAGSystem::retrieve` once the processed file has been
read into `content`: empty content short-circuits to the empty result,
otherwise the query is lower-cased, split into keywords, and the keyword
loop runs over the lower-cased content. -/
def retrieveFromContent (content query : List Char) : Option (List Char) :=
  if content.isEmpty then some []
  else searchKeywords content (toLowerStr content) (splitWs (toLowerStr query))

/-- First keyword (in query order) that occurs in `contentLower`; used to
state which keyword the loop of `retrieve` commits to. -/
def firstMatchingKeyword (contentLower : List Char) :
    List (List Char) → Option (List Char)
  | [] => none
  | k :: ks =>
    if (findSub contentLower k).isSome then some k
    else firstMatchingKeyword contentLower ks

/-- In-memory document store: partial map from document id to content. -/
def Store : Type := String → Option (List Char)

/-- File system model: partial map from path to file content. -/
def FS : Type := String → Option (List Char)

/-- Insert/overwrite a binding in a partial map. -/
def mapInsert (m : String → Option (List Char)) (k : String) (v : List Char) :
    String → Option (List Char) :=
  fun x => if x = k then some v else m x

/-- The `RAGSystem` struct: document store plus the optional processed-text
file path. -/
structure RAGSystem where
  document_store : Store
  processed_text_path : Option String

/-- `RAGSystem::new`. -/
def RAGSystem.new : RAGSystem :=
  { document_store := fun _ => none, processed_text_path := none }

/-- `RAGSystem::add_document`: insert/overwrite in the document store. -/
def add_document (sys : RAGSystem) (doc_id : String) (content : List Char) :
    RAGSystem :=
  { sys with document_store := mapInsert sys.document_store doc_id content }

/-- Errors of `add_pdf_document`, mirroring the three `context(...)` sites. -/
inductive AddError where
  | extractionFailed
  | createFailed
  | writeFailed
deriving DecidableEq, Repr

/-- Errors of `retrieve`: the missing-context error raised when no
processed-text path was ever set, and the file-read failure. -/
inductive RetrieveError where
  | missingContext
  | readFailed
deriving DecidableEq, Repr

/-- `RAGSystem::add_pdf_document`. The PDF extractor is passed in as the
oracle `extract` (`Except` mirrors `Result`), and the success of
`File::create` and `write_all` as the oracles `createOk` and `writeOk`.
State mutation order mirrors the source: every fallible step happens before
the processed-text path is set and the placeholder entry is stored, and
`File::create` truncates the output file before the write is attempted. -/
def add_pdf_document (sys : RAGSystem) (fs : FS) (pdf_path output_path : String)
    (extract : Except String (List Char)) (createOk writeOk : Bool) :
    Except AddError Unit × RAGSystem × FS :=
  match extract with
  | .error _ => (.error .extractionFailed, sys, fs)
  | .ok content =>
    let cleaned := clean_text content
    if createOk then
      let fs1 := mapInsert fs output_path []
      if writeOk then
        let fs2 := mapInsert fs1 output_path cleaned
        let sys1 := { sys with processed_text_path := some output_path }
        (.ok (), add_document sys1 pdf_path [], fs2)
      else (.error .writeFailed, sys, fs1)
    else (.error .createFailed, sys, fs)

/-- `RAGSystem::retrieve`: fail with the missing-context error when no
processed-text path is set, fail when the file cannot be read, else run the
pure retrieval core over the file content. The inner `Option` models the
run-time slicing failure (proved unreachable below). -/
def retrieve (sys : RAGSystem) (fs : FS) (query : List Char) :
    Except RetrieveError (Option (List Char)) :=
  match sys.processed_text_path with
  | none => .error .missingContext
  | some p =>
    match fs p with
    | none => .error .readFailed
    | some content => .ok (retrieveFromContent content query)

/-- Errors of `process_query` in `lib.rs`. -/
inductive PQError where
  | addFailed (e : AddError)
  | retrieveFailed (e : RetrieveError)
  | sliceFault
deriving DecidableEq, Repr

/-- `process_query` from `lib.rs`: a fresh `RAGSystem`, PDF ingestion into
`bin/processed.txt`, retrieval of the context for the query, then a single
chat message — the raw query when the context is empty, otherwise the
composed `Context/Question` prompt. The chat backend is the oracle
`chatFn`. -/
def process_query (query : List Char) (pdf_path : String) (fs : FS)
    (extract : Except String (List Char)) (createOk writeOk : Bool)
    (chatFn : List Char → List Char) : Except PQError (List Char) :=
  match add_pdf_document RAGSystem.new fs pdf_path "bin/processed.txt"
      extract createOk writeOk with
  | (.error e, _, _) => .error (.addFailed e)
  | (.ok (), sys1, fs1) =>
    match retrieve sys1 fs1 query with
    | .error e => .error (.retrieveFailed e)
    | .ok none => .error .sliceFault
    | .ok (some context) =>
      .ok (chatFn (if context.isEmpty then query
        else "Context: ".data ++ context ++ "\n\nQuestion: ".data ++ query))

/-- No two adjacent whitespace characters (no whitespace run longer than
one). -/
def noAdjWs : List Char → Bool
  | a :: b :: rest => (!(a.isWhitespace && b.isWhitespace)) && noAdjWs (b :: rest)
  | _ => true

/-- Every whitespace character is a plain space. -/
def allWsSpace (l : List Char) : Bool :=
  l.all fun c => !c.isWhitespace || (c == ' ')

/-- The shape the specification requires of `clean_text` output: no
whitespace run longer than one character and no leading or trailing
whitespace. -/
def cleanShaped (l : List Char) : Bool :=
  noAdjWs l && (l.head?.all fun c => !c.isWhitespace)
    && (l.getLast?.all fun c => !c.isWhitespace)

/-- Byte length of the UTF-8 encoding of a character string
(`str::len`). -/
def utf8Len (s : List Char) : Nat := (s.map Char.utf8Size).sum

/-- Model of `str::is_char_boundary` over the UTF-8 encoding of `s`:
byte offset `i` is a boundary iff it is the encoded length of some
character prefix of `s` (0 and the total length included). -/
def isCharBoundary : List Char → Nat → Bool
  | _, 0 => true
  | [], _ + 1 => false
  | c :: rest, i + 1 =>
    if i + 1 < c.utf8Size then false
    else isCharBoundary rest (i + 1 - c.utf8Size)

/-- Byte index of the first occurrence of `pat` in `s`, as `str::find`
returns it. UTF-8 is self-synchronizing, so on well-formed strings the
first byte-level occurrence lies at the byte offset of the first
character-level occurrence. -/
def byteFind (s pat : List Char) : Option Nat :=
  (findSub s pat).map fun i => utf8Len (s.take i)

/-- Outcome of the byte-level window computation of `retrieve`:
no keyword matched (the loop falls through to the empty result), a valid
slice `content[start..stop]`, or a run-time slicing failure. -/
inductive ByteSliceOutcome where
  | noMatch
  | window (start stop : Nat)
  | slicePanic (start stop : Nat)
deriving DecidableEq, Repr

/-- Byte-level model of the keyword loop at gemini.rs:79-84: `position`
is the byte index of the match in the lower-cased content, `start` and
`stop` are computed with `saturating_sub`/`min` in bytes, and the slice
`content[start..stop]` of the ORIGINAL content succeeds only when the
range is ordered, within the original byte length, and both ends lie on
character boundaries of the original content; otherwise Rust panics. -/
def searchKeywordsBytes (content contentLower : List Char) :
    List (List Char) → ByteSliceOutcome
  | [] => .noMatch
  | k :: ks =>
    match byteFind contentLower k with
    | some position =>
      let start := position - 300
      let stop := min (position + utf8Len k + 300) (utf8Len content)
      if start ≤ stop ∧ stop ≤ utf8Len content ∧
          isCharBoundary content start = true ∧
          isCharBoundary content stop = true then
        .window start stop
      else .slicePanic start stop
    | none => searchKeywordsBytes content contentLower ks

/-- Byte-level core of `retrieve`: the byte arithmetic the code actually
performs when it slices the original content with indices found in the
lower-cased content. -/
def retrieveBytes (content query : List Char) : ByteSliceOutcome :=
  if content.isEmpty then .noMatch
  else searchKeywordsBytes content (toLowerStr content)
    (splitWs (toLowerStr query))

/-- Content whose UTF-8 encoding defeats the window computation: the
keyword "needle" matches at byte offset 302 of the lower-cased content
(which here equals the original byte-for-byte, lower-casing being the
identity on every character), so start = 302 - 300 = 2 falls strictly
inside the two-byte character 'é'. -/
def accentContent : List Char :=
  'a' :: 'é' :: (List.replicate 299 'x' ++ "needle".data)

/-- Content refuting claim C1 as universally stated: the token "banana"
occurs in the content, but only 306 characters in, beyond the right edge of
the 300-character window placed around the "apple" match at index 0. -/
def farContent : List Char :=
  "apple".data ++ List.replicate 301 'x' ++ "banana".data

/-- The window `retrieve` actually returns on `farContent` for the query
"apple banana": characters 0 to 304. -/
def farWindow : List Char := "apple".data ++ List.replicate 300 'x'

/-! ### Facts about `findSub` -/

theorem findSub_some (s pat : List Char) (i : Nat) (h : findSub s pat = some i) :
    pat.isPrefixOf (s.drop i) = true ∧
      ∀ j, j < i → pat.isPrefixOf (s.drop j) = false := by
  induction s generalizing i with
  | nil =>
    unfold findSub at h
    by_cases hp : pat.isPrefixOf ([] : List Char)
    · simp [hp] at h
      subst h
      exact ⟨hp, fun j hj => absurd hj (Nat.not_lt_zero j)⟩
    · simp [hp] at h
  | cons a rest ih =>
    unfold findSub at h
    by_cases hp : pat.isPrefixOf (a :: rest)
    · simp [hp] at h
      subst h
      exact ⟨hp, fun j hj => absurd hj (Nat.not_lt_zero j)⟩
    · simp only [hp, if_neg, Bool.false_eq_true, if_false, Option.map_eq_some'] at h
      obtain ⟨i0, hi0, rfl⟩ := h
      obtain ⟨h1, h2⟩ := ih i0 hi0
      refine ⟨by simpa using h1, ?_⟩
      intro j hj
      cases j with
      | zero => simpa using Bool.eq_false_iff.mpr hp
      | succ j0 =>
        simpa using h2 j0 (Nat.lt_of_succ_lt_succ hj)

theorem findSub_none (s pat : List Char) (h : findSub s pat = none) :
    ∀ j, pat.isPrefixOf (s.drop j) = false := by
  induction s with
  | nil =>
    unfold findSub at h
    by_cases hp : pat.isPrefixOf ([] : List Char)
    · simp [hp] at h
    · intro j
      simpa using Bool.eq_false_iff.mpr hp
  | cons a rest ih =>
    unfold findSub at h
    by_cases hp : pat.isPrefixOf (a :: rest)
    · simp [hp] at h
    · simp only [hp, Bool.false_eq_true, if_false, Option.map_eq_none'] at h
      intro j
      cases j with
      | zero => simpa using Bool.eq_false_iff.mpr hp
      | succ j0 => simpa using ih h j0

theorem findSub_isSome_of_occurs (s pat : List Char) (j : Nat)
    (h : pat.isPrefixOf (s.drop j) = true) : (findSub s pat).isSome = true := by
  cases hf : findSub s pat with
  | none => exact absurd h (by simp [findSub_none s pat hf j])
  | some i => rfl

theorem findSub_le_length (s pat : List Char) (i : Nat)
    (h : findSub s pat = some i) : i ≤ s.length := by
  induction s generalizing i with
  | nil =>
    unfold findSub at h
    by_cases hp : pat.isPrefixOf ([] : List Char)
    · simp [hp] at h
      omega
    · simp [hp] at h
  | cons a rest ih =>
    unfold findSub at h
    by_cases hp : pat.isPrefixOf (a :: rest)
    · simp [hp] at h
      omega
    · simp only [hp, Bool.false_eq_true, if_false, Option.map_eq_some'] at h
      obtain ⟨i0, hi0, rfl⟩ := h
      have := ih i0 hi0
      simp
      omega

theorem findSub_add_length_le (s pat : List Char) (i : Nat)
    (h : findSub s pat = some i) : i + pat.length ≤ s.length := by
  have h1 := (findSub_some s pat i h).1
  have h2 := findSub_le_length s pat i h
  have h3 : pat <+: s.drop i := by
    exact (List.isPrefixOf_iff_prefix).mp h1
  have h4 : pat.length ≤ (s.drop i).length := h3.length_le
  simp at h4
  omega

/-! ### Facts about `splitWs` -/

theorem splitWsAux_ne_nil (s : List Char) :
    ∀ acc k, k ∈ splitWsAux s acc → k ≠ [] := by
  induction s with
  | nil =>
    intro acc k hk
    unfold splitWsAux at hk
    by_cases ha : acc.isEmpty
    · simp [ha] at hk
    · simp [ha] at hk
      subst hk
      simpa [List.isEmpty_iff] using ha
  | cons c rest ih =>
    intro acc k hk
    unfold splitWsAux at hk
    by_cases hc : c.isWhitespace
    · by_cases ha : acc.isEmpty
      · simp [hc, ha] at hk
        exact ih [] k hk
      · simp [hc, ha] at hk
        rcases hk with hk | hk
        · subst hk
          simpa [List.isEmpty_iff] using ha
        · exact ih [] k hk
    · simp [hc] at hk
      exact ih (c :: acc) k hk

theorem splitWs_ne_nil (s : List Char) : ∀ k ∈ splitWs s, k ≠ [] :=
  fun k hk => splitWsAux_ne_nil s [] k hk

/-! ### Facts about the keyword loop -/

theorem toLowerStr_length (s : List Char) : (toLowerStr s).length = s.length := by
  simp [toLowerStr]

theorem windowOf_isSome (content k : List Char) (p : Nat)
    (h : findSub (toLowerStr content) k = some p) :
    ∃ w, windowOf content p k.length = some w := by
  have h1 := findSub_add_length_le (toLowerStr content) k p h
  rw [toLowerStr_length] at h1
  unfold windowOf sliceChecked
  rw [if_pos (⟨by omega, by omega⟩ :
    p - 300 ≤ min (p + k.length + 300) content.length ∧
      min (p + k.length + 300) content.length ≤ content.length)]
  exact ⟨_, rfl⟩

theorem searchKeywords_isSome (content : List Char) (ks : List (List Char)) :
    ∃ w, searchKeywords content (toLowerStr content) ks = some w := by
  induction ks with
  | nil => exact ⟨[], rfl⟩
  | cons k ks ih =>
    unfold searchKeywords
    cases hf : findSub (toLowerStr content) k with
    | none => exact ih
    | some p => exact windowOf_isSome content k p hf

theorem searchKeywords_all_none (content contentLower : List Char)
    (ks : List (List Char)) (h : ∀ k ∈ ks, findSub contentLower k = none) :
    searchKeywords content contentLower ks = some [] := by
  induction ks with
  | nil => rfl
  | cons k ks ih =>
    unfold searchKeywords
    rw [h k (by simp)]
    exact ih fun k0 hk0 => h k0 (by simp [hk0])

theorem searchKeywords_split (content contentLower : List Char)
    (ks1 ks2 : List (List Char)) (k : List Char) (p : Nat)
    (hnone : ∀ k0 ∈ ks1, findSub contentLower k0 = none)
    (hfind : findSub contentLower k = some p) :
    searchKeywords content contentLower (ks1 ++ k :: ks2) =
      windowOf content p k.length := by
  induction ks1 with
  | nil =>
    rw [List.nil_append]
    unfold searchKeywords
    rw [hfind]
  | cons k0 ks1 ih =>
    rw [List.cons_append]
    unfold searchKeywords
    rw [hnone k0 (by simp)]
    exact ih fun k1 hk1 => hnone k1 (by simp [hk1])

theorem searchKeywords_of_match (content : List Char) (ks : List (List Char))
    (k : List Char) (hk : k ∈ ks)
    (hocc : (findSub (toLowerStr content) k).isSome = true) :
    ∃ k0 p, firstMatchingKeyword (toLowerStr content) ks = some k0 ∧
      findSub (toLowerStr content) k0 = some p ∧
      searchKeywords content (toLowerStr content) ks =
        windowOf content p k0.length := by
  induction ks with
  | nil => cases hk
  | cons k1 ks ih =>
    by_cases h1 : (findSub (toLowerStr content) k1).isSome
    · obtain ⟨p, hp⟩ := Option.isSome_iff_exists.mp h1
      refine ⟨k1, p, ?_, hp, ?_⟩
      · unfold firstMatchingKeyword
        rw [if_pos h1]
      · unfold searchKeywords
        rw [hp]
    · have hk1 : findSub (toLowerStr content) k1 = none :=
        Option.not_isSome_iff_eq_none.mp h1
      have hkmem : k ∈ ks := by
        rcases List.mem_cons.mp hk with h | h
        · subst h
          exact absurd hocc (by simp [hk1])
        · exact h
      obtain ⟨k0, p, h2, h3, h4⟩ := ih hkmem
      refine ⟨k0, p, ?_, h3, ?_⟩
      · unfold firstMatchingKeyword
        rw [if_neg h1, h2]
      · unfold searchKeywords
        rw [hk1, h4]

/-- The window around a match contains the matched keyword
(case-insensitively): the matched keyword is a prefix of some tail of the
lower-cased window, hence `findSub` succeeds on it. -/
theorem windowOf_contains (content k : List Char) (p : Nat) (hk : k ≠ [])
    (hfind : findSub (toLowerStr content) k = some p) :
    ∃ w, windowOf content p k.length = some w ∧ w ≠ [] ∧
      (findSub (toLowerStr w) k).isSome = true := by
  obtain ⟨w, hw⟩ := windowOf_isSome content k p hfind
  have hlen := findSub_add_length_le (toLowerStr content) k p hfind
  rw [toLowerStr_length] at hlen
  have hkpos : 0 < k.length := List.length_pos_of_ne_nil hk
  have hpref : k.isPrefixOf ((toLowerStr content).drop p) = true :=
    (findSub_some (toLowerStr content) k p hfind).1
  set start := p - 300 with hstart
  set stop := min (p + k.length + 300) content.length with hstop
  have hwval : w = (content.drop start).take (stop - start) := by
    unfold windowOf sliceChecked at hw
    rw [if_pos (by omega)] at hw
    exact (Option.some.injEq _ _).mp hw |>.symm
  refine ⟨w, hw, ?_, ?_⟩
  · have hwlen : w.length = min (stop - start) (content.length - start) := by
      simp [hwval]
    have : 0 < w.length := by omega
    exact List.ne_nil_of_length_pos this
  · -- the lower-cased window is the same slice of the lower-cased content
    have hmap : toLowerStr w =
        ((toLowerStr content).drop start).take (stop - start) := by
      simp [hwval, toLowerStr, List.map_take, List.map_drop]
    -- inside that slice, the keyword occurs at offset p - start
    have hdrop : (toLowerStr w).drop (p - start) =
        ((toLowerStr content).drop p).take (stop - p) := by
      rw [hmap, List.drop_take, List.drop_drop]
      have e1 : stop - start - (p - start) = stop - p := by omega
      have e2 : start + (p - start) = p := by omega
      rw [e1, e2]
    have hpref2 : k.isPrefixOf ((toLowerStr w).drop (p - start)) = true := by
      rw [hdrop]
      have h5 : k <+: (toLowerStr content).drop p :=
        (List.isPrefixOf_iff_prefix).mp hpref
      have h6 : k <+: ((toLowerStr content).drop p).take (stop - p) := by
        rw [List.prefix_take_iff]
        exact ⟨h5, by omega⟩
      exact (List.isPrefixOf_iff_prefix).mpr h6
    exact findSub_isSome_of_occurs _ _ _ hpref2

theorem findSub_nil_of_ne (k : List Char) (hk : k ≠ []) :
    findSub [] k = none := by
  cases k with
  | nil => exact absurd rfl hk
  | cons a as => rfl

theorem content_ne_nil_of_match (content k : List Char) (hk : k ≠ [])
    (hocc : (findSub (toLowerStr content) k).isSome = true) : content ≠ [] := by
  intro hc
  subst hc
  rw [show toLowerStr [] = [] from rfl, findSub_nil_of_ne k hk] at hocc
  simp at hocc

theorem firstMatchingKeyword_mem (contentLower : List Char)
    (ks : List (List Char)) (k0 : List Char)
    (h : firstMatchingKeyword contentLower ks = some k0) : k0 ∈ ks := by
  induction ks with
  | nil => simp [firstMatchingKeyword] at h
  | cons k ks ih =>
    unfold firstMatchingKeyword at h
    by_cases hf : (findSub contentLower k).isSome
    · rw [if_pos hf] at h
      simp at h
      simp [h]
    · rw [if_neg hf] at h
      simp [ih h]

theorem searchKeywords_infix (content contentLower : List Char)
    (ks : List (List Char)) (w : List Char)
    (h : searchKeywords content contentLower ks = some w) : w <:+: content := by
  induction ks with
  | nil =>
    unfold searchKeywords at h
    injection h with h
    exact h ▸ List.nil_infix
  | cons k ks ih =>
    unfold searchKeywords at h
    cases hf : findSub contentLower k with
    | none =>
      simp only [hf] at h
      exact ih h
    | some p =>
      simp only [hf] at h
      unfold windowOf sliceChecked at h
      by_cases hc : p - 300 ≤ min (p + k.length + 300) content.length ∧
          min (p + k.length + 300) content.length ≤ content.length
      · rw [if_pos hc] at h
        simp only [Option.some.injEq] at h
        subst h
        exact ((List.take_prefix _ _).isInfix).trans
          ((List.drop_suffix _ _).isInfix)
      · rw [if_neg hc] at h
        cases h

theorem searchKeywords_empty_imp (content : List Char) (ks : List (List Char))
    (hne : ∀ k ∈ ks, k ≠ [])
    (h : searchKeywords content (toLowerStr content) ks = some []) :
    ∀ k ∈ ks, findSub (toLowerStr content) k = none := by
  induction ks with
  | nil => simp
  | cons k ks ih =>
    have hk : findSub (toLowerStr content) k = none := by
      cases hf : findSub (toLowerStr content) k with
      | none => rfl
      | some p =>
        obtain ⟨w, hw, hwne, _⟩ :=
          windowOf_contains content k p (hne k (by simp)) hf
        unfold searchKeywords at h
        simp only [hf] at h
        rw [hw] at h
        simp at h
        exact absurd h hwne
    intro k0 hk0
    rcases List.mem_cons.mp hk0 with h0 | h0
    · subst h0
      exact hk
    · have h1 : searchKeywords content (toLowerStr content) ks = some [] := by
        unfold searchKeywords at h
        simp only [hk] at h
        exact h
      exact ih (fun k1 hk1 => hne k1 (by simp [hk1])) h1 k0 h0


/-! ### Claim theorems about the retrieval engine -/

/-- At character granularity the clamping arithmetic of `retrieve`
(saturating start, `min` end) keeps the window within the content: the
checked slice always succeeds and the window is a contiguous in-bounds
piece of the content. This does NOT transfer to the byte level at which
the Rust slice operates — see `retrieve_window_byte_panic`. -/
theorem retrieve_window_in_bounds (content query : List Char) :
    (retrieveFromContent content query).isSome = true ∧
    (retrieveFromContent content query).all
      (fun w => decide (w <:+: content)) = true := by
  unfold retrieveFromContent
  by_cases hc : content.isEmpty
  · rw [if_pos hc]
    simp
  · rw [if_neg hc]
    obtain ⟨w, hw⟩ :=
      searchKeywords_isSome content (splitWs (toLowerStr query))
    rw [hw]
    refine ⟨rfl, ?_⟩
    simp only [Option.all_some, decide_eq_true_eq]
    exact searchKeywords_infix content (toLowerStr content) _ w hw

set_option maxRecDepth 40000 in
/-- C2: the code violates the claim. On `accentContent` with query
"needle" the byte-level window computation of `retrieve` slices
`content[2..308]`, and byte 2 is not a character boundary of the content
(it lies inside the two-byte 'é'), so the slice panics at run time. The
specification states the clear intent (never index out of bounds, never
panic); taking byte indices found in `content_lower` and slicing the
original `content` with them is the slip. -/
theorem retrieve_window_byte_panic :
    retrieveBytes accentContent "needle".data =
      ByteSliceOutcome.slicePanic 2 308 ∧
    isCharBoundary accentContent 2 = false ∧
    utf8Len accentContent = 308 := by
  refine ⟨by decide, by decide, by decide⟩

/-- C5: `retrieve` scans the query tokens in query order; the first token
with any match is the one used, its lowest match index places the window,
and later tokens and later positions are never consulted. Stated for any
decomposition of the token list into non-matching tokens `ks1`, the first
matching token `k` (matching at `p`), and arbitrary later tokens `ks2`. -/
theorem retrieve_first_token_wins (content query : List Char)
    (ks1 ks2 : List (List Char)) (k : List Char) (p : Nat)
    (hsplit : splitWs (toLowerStr query) = ks1 ++ k :: ks2)
    (hnone : ∀ k0 ∈ ks1, findSub (toLowerStr content) k0 = none)
    (hfind : findSub (toLowerStr content) k = some p) :
    retrieveFromContent content query =
      sliceChecked content (p - 300)
        (min (p + k.length + 300) content.length) ∧
    k.isPrefixOf ((toLowerStr content).drop p) = true ∧
    (List.range p).all
      (fun q => !(k.isPrefixOf ((toLowerStr content).drop q))) = true := by
  have hkmem : k ∈ splitWs (toLowerStr query) := by
    rw [hsplit]
    simp
  have hkne : k ≠ [] := splitWs_ne_nil _ k hkmem
  have hcne : content ≠ [] :=
    content_ne_nil_of_match content k hkne (by simp [hfind])
  obtain ⟨h1, h2⟩ := findSub_some (toLowerStr content) k p hfind
  refine ⟨?_, h1, ?_⟩
  · unfold retrieveFromContent
    rw [if_neg (by simpa using hcne), hsplit,
      searchKeywords_split content (toLowerStr content) ks1 ks2 k p hnone hfind]
    rfl
  · simp only [List.all_eq_true, List.mem_range, Bool.not_eq_true']
    intro q hq
    exact h2 q hq

/-- Witness for C5, instantiating Scenario C of the specification: query
"apple banana" against content containing "banana" but not "apple"; the
window is placed at the first "banana" match, at index 9. -/
theorem retrieve_first_token_wins_witness :
    retrieveFromContent "He baked banana bread today".data "apple banana".data =
      sliceChecked "He baked banana bread today".data (9 - 300)
        (min (9 + "banana".data.length + 300)
          "He baked banana bread today".data.length) ∧
    "banana".data.isPrefixOf
      ((toLowerStr "He baked banana bread today".data).drop 9) = true ∧
    (List.range 9).all
      (fun q => !("banana".data.isPrefixOf
        ((toLowerStr "He baked banana bread today".data).drop q))) = true :=
  retrieve_first_token_wins "He baked banana bread today".data
    "apple banana".data ["apple".data] [] "banana".data 9
    (by decide) (by decide) (by decide)

/-- C6: on a populated session (path set and file readable), a query none
of whose lower-cased tokens occurs in the lower-cased content makes
`retrieve` return the empty string, never an error. -/
theorem retrieve_no_match_returns_empty (sys : RAGSystem) (fs : FS)
    (p : String) (content query : List Char)
    (hp : sys.processed_text_path = some p)
    (hfs : fs p = some content)
    (hnone : ∀ k ∈ splitWs (toLowerStr query),
      findSub (toLowerStr content) k = none) :
    retrieve sys fs query = .ok (some []) := by
  unfold retrieve
  simp only [hp, hfs]
  unfold retrieveFromContent
  by_cases hc : content.isEmpty
  · rw [if_pos hc]
  · rw [if_neg hc,
      searchKeywords_all_none content (toLowerStr content) _ hnone]

/-- Witness for C6 at a concrete populated session and non-matching query. -/
theorem retrieve_no_match_returns_empty_witness :
    retrieve
      { document_store := fun _ => none,
        processed_text_path := some "bin/processed.txt" }
      (fun _ => some "hello world".data) "zebra".data = .ok (some []) :=
  retrieve_no_match_returns_empty _ _ "bin/processed.txt"
    "hello world".data "zebra".data rfl rfl (by decide)

/-- C3: invoking `retrieve` on a session whose processed-text handle was
never populated fails with the missing-context error; conversely, the
empty result arises only on a populated, readable session after a search
in which no query token matched. -/
theorem retrieve_missing_vs_empty (sys : RAGSystem) (fs : FS)
    (query : List Char) :
    (sys.processed_text_path = none →
      retrieve sys fs query = .error .missingContext) ∧
    (retrieve sys fs query = .ok (some []) →
      ∃ p content, sys.processed_text_path = some p ∧ fs p = some content ∧
        ∀ k ∈ splitWs (toLowerStr query),
          findSub (toLowerStr content) k = none) := by
  constructor
  · intro h
    unfold retrieve
    rw [h]
  · intro h
    cases hp : sys.processed_text_path with
    | none =>
      unfold retrieve at h
      rw [hp] at h
      cases h
    | some p =>
      cases hfs : fs p with
      | none =>
        unfold retrieve at h
        simp only [hp, hfs] at h
        cases h
      | some content =>
        unfold retrieve at h
        simp only [hp, hfs] at h
        refine ⟨p, content, rfl, hfs, ?_⟩
        simp only [Except.ok.injEq] at h
        unfold retrieveFromContent at h
        by_cases hc : content.isEmpty
        · intro k hk
          have hkne : k ≠ [] := splitWs_ne_nil _ k hk
          rw [List.isEmpty_iff.mp hc]
          exact findSub_nil_of_ne k hkne
        · rw [if_neg hc] at h
          exact searchKeywords_empty_imp content _
            (splitWs_ne_nil _) h

/-- Witness for C3: a session with no processed-text handle fails with the
missing-context error. -/
theorem retrieve_missing_vs_empty_witness :
    retrieve { document_store := fun _ => none, processed_text_path := none }
      (fun _ => none) "anything".data = .error .missingContext :=
  (retrieve_missing_vs_empty
    { document_store := fun _ => none, processed_text_path := none }
    (fun _ => none) "anything".data).1 rfl

/-- C7: Scenario A — with stored content "Michael Harditya is a student."
and query "Michael", `retrieve` returns the full content string: the
300-character window clamps to both ends. -/
theorem retrieve_scenario_A :
    retrieve
      { document_store := fun _ => none,
        processed_text_path := some "bin/processed.txt" }
      (fun _ => some "Michael Harditya is a student.".data)
      "Michael".data =
      .ok (some "Michael Harditya is a student.".data) := rfl

set_option maxRecDepth 40000 in
/-- Counterexample to C1 as stated: "banana" is a token of the lower-cased
query and occurs (case-insensitively) in the content, the session is
populated with that content, yet the non-empty result of `retrieve` does
not contain "banana". -/
theorem retrieve_token_beyond_window_cex :
    "banana".data ∈ splitWs (toLowerStr "apple banana".data) ∧
    (findSub (toLowerStr farContent) "banana".data).isSome = true ∧
    retrieve
      { document_store := fun _ => none,
        processed_text_path := some "bin/processed.txt" }
      (fun _ => some farContent) "apple banana".data = .ok (some farWindow) ∧
    farWindow ≠ [] ∧
    findSub (toLowerStr farWindow) "banana".data = none := by
  refine ⟨by decide, by decide, rfl, by decide, by decide⟩

/-- C1 amended: if some token of the lower-cased query occurs
(case-insensitively) in the content, `retrieve` returns a non-empty string,
and that string contains, case-insensitively, the FIRST query-order token
that occurs in the content (not necessarily every occurring token). -/
theorem retrieve_contains_first_matching_token (content query k : List Char)
    (hk : k ∈ splitWs (toLowerStr query))
    (hocc : (findSub (toLowerStr content) k).isSome = true) :
    ∃ k0 w,
      firstMatchingKeyword (toLowerStr content)
        (splitWs (toLowerStr query)) = some k0 ∧
      retrieveFromContent content query = some w ∧ w ≠ [] ∧
      (findSub (toLowerStr w) k0).isSome = true := by
  have hkne : k ≠ [] := splitWs_ne_nil _ k hk
  have hcne : content ≠ [] := content_ne_nil_of_match content k hkne hocc
  obtain ⟨k0, p, h1, h2, h3⟩ :=
    searchKeywords_of_match content (splitWs (toLowerStr query)) k hk hocc
  have hk0mem : k0 ∈ splitWs (toLowerStr query) :=
    firstMatchingKeyword_mem (toLowerStr content) _ k0 h1
  have hk0ne : k0 ≠ [] := splitWs_ne_nil _ k0 hk0mem
  obtain ⟨w, hw, hwne, hwc⟩ := windowOf_contains content k0 p hk0ne h2
  refine ⟨k0, w, h1, ?_, hwne, hwc⟩
  unfold retrieveFromContent
  rw [if_neg (by simpa using hcne), h3, hw]

/-- Witness for the amended C1 at a concrete content and single-token
query. -/
theorem retrieve_contains_first_matching_token_witness :
    ∃ k0 w,
      firstMatchingKeyword (toLowerStr "He baked Banana bread".data)
        (splitWs (toLowerStr "banana".data)) = some k0 ∧
      retrieveFromContent "He baked Banana bread".data "banana".data =
        some w ∧ w ≠ [] ∧
      (findSub (toLowerStr w) k0).isSome = true :=
  retrieve_contains_first_matching_token "He baked Banana bread".data
    "banana".data "banana".data (by decide) (by decide)

/-! ### Facts about `collapseWs`, `trimStr` and `clean_text` -/

theorem noAdjWs_tail (a : Char) (l : List Char)
    (h : noAdjWs (a :: l) = true) : noAdjWs l = true := by
  cases l with
  | nil => rfl
  | cons b l2 =>
    unfold noAdjWs at h
    exact (Bool.and_eq_true _ _).mp h |>.2

theorem noAdjWs_cons_not_ws (c : Char) (l : List Char)
    (hc : c.isWhitespace = false) : noAdjWs (c :: l) = noAdjWs l := by
  cases l with
  | nil => rfl
  | cons b l2 =>
    show (!(c.isWhitespace && b.isWhitespace) && noAdjWs (b :: l2)) =
      noAdjWs (b :: l2)
    rw [hc]
    simp

theorem collapseWs_single (c : Char) :
    collapseWs [c] = if c.isWhitespace then [' '] else [c] := rfl

theorem collapseWs_two_ws (c d : Char) (rest : List Char)
    (hc : c.isWhitespace = true) (hd : d.isWhitespace = true) :
    collapseWs (c :: d :: rest) = collapseWs (d :: rest) := by
  simp only [collapseWs]
  simp [hc, hd]

theorem collapseWs_ws_nonws (c d : Char) (rest : List Char)
    (hc : c.isWhitespace = true) (hd : d.isWhitespace = false) :
    collapseWs (c :: d :: rest) = ' ' :: collapseWs (d :: rest) := by
  simp only [collapseWs]
  simp [hc, hd]

theorem collapseWs_nonws (c d : Char) (rest : List Char)
    (hc : c.isWhitespace = false) :
    collapseWs (c :: d :: rest) = c :: collapseWs (d :: rest) := by
  simp only [collapseWs]
  simp [hc]

theorem collapseWs_head_not_ws (d : Char) (rest : List Char)
    (hd : d.isWhitespace = false) :
    (collapseWs (d :: rest)).head? = some d := by
  cases rest with
  | nil =>
    rw [collapseWs_single, if_neg (by simp [hd])]
    rfl
  | cons e rest2 =>
    rw [collapseWs_nonws d e rest2 hd]
    rfl

theorem noAdjWs_cons_head (a : Char) (l : List Char)
    (hadj : noAdjWs l = true)
    (hhead : (l.head?.all fun b => !(a.isWhitespace && b.isWhitespace)) = true) :
    noAdjWs (a :: l) = true := by
  cases l with
  | nil => rfl
  | cons b l2 =>
    show (!(a.isWhitespace && b.isWhitespace) && noAdjWs (b :: l2)) = true
    rw [Bool.and_eq_true]
    refine ⟨?_, hadj⟩
    simpa using hhead

theorem collapseWs_clean (s : List Char) :
    noAdjWs (collapseWs s) = true ∧ allWsSpace (collapseWs s) = true := by
  induction s with
  | nil => exact ⟨rfl, rfl⟩
  | cons c rest ih =>
    cases rest with
    | nil =>
      by_cases hc : c.isWhitespace
      · rw [collapseWs_single, if_pos hc]
        exact ⟨rfl, by decide⟩
      · rw [collapseWs_single, if_neg hc]
        refine ⟨rfl, ?_⟩
        unfold allWsSpace
        simp [Bool.eq_false_iff.mpr hc]
    | cons d rest2 =>
      by_cases hc : c.isWhitespace
      · by_cases hd : d.isWhitespace
        · rw [collapseWs_two_ws c d rest2 hc hd]
          exact ih
        · have hd0 : d.isWhitespace = false := Bool.eq_false_iff.mpr hd
          rw [collapseWs_ws_nonws c d rest2 hc hd0]
          constructor
          · refine noAdjWs_cons_head ' ' _ ih.1 ?_
            rw [collapseWs_head_not_ws d rest2 hd0]
            simp [hd0]
          · unfold allWsSpace
            rw [List.all_cons]
            exact (Bool.and_eq_true _ _).mpr ⟨by decide, ih.2⟩
      · have hc0 : c.isWhitespace = false := Bool.eq_false_iff.mpr hc
        rw [collapseWs_nonws c d rest2 hc0]
        constructor
        · rw [noAdjWs_cons_not_ws c _ hc0]
          exact ih.1
        · unfold allWsSpace
          rw [List.all_cons]
          exact (Bool.and_eq_true _ _).mpr ⟨by simp [hc0], ih.2⟩

theorem allWsSpace_tail (a : Char) (l : List Char)
    (h : allWsSpace (a :: l) = true) : allWsSpace l = true := by
  unfold allWsSpace at h ⊢
  rw [List.all_cons] at h
  exact (Bool.and_eq_true _ _).mp h |>.2

theorem allWsSpace_head (a : Char) (l : List Char)
    (h : allWsSpace (a :: l) = true) (ha : a.isWhitespace = true) :
    a = ' ' := by
  unfold allWsSpace at h
  rw [List.all_cons] at h
  have h1 := (Bool.and_eq_true _ _).mp h |>.1
  rw [ha] at h1
  simpa using h1

theorem collapseWs_id (s : List Char) (h1 : noAdjWs s = true)
    (h2 : allWsSpace s = true) : collapseWs s = s := by
  induction s with
  | nil => rfl
  | cons c rest ih =>
    cases rest with
    | nil =>
      by_cases hc : c.isWhitespace
      · have hsp : c = ' ' := allWsSpace_head c [] h2 hc
        subst hsp
        rfl
      · rw [collapseWs_single, if_neg hc]
    | cons d rest2 =>
      have htail : noAdjWs (d :: rest2) = true := noAdjWs_tail c _ h1
      have htail2 : allWsSpace (d :: rest2) = true := allWsSpace_tail c _ h2
      by_cases hc : c.isWhitespace
      · have hd : d.isWhitespace = false := by
          have hpair : (!(c.isWhitespace && d.isWhitespace)) = true := by
            have := h1
            unfold noAdjWs at this
            exact (Bool.and_eq_true _ _).mp this |>.1
          rw [hc] at hpair
          simpa using hpair
        have hcsp : c = ' ' := allWsSpace_head c _ h2 hc
        rw [collapseWs_ws_nonws c d rest2 hc hd, ih htail htail2, hcsp]
      · rw [collapseWs_nonws c d rest2 (Bool.eq_false_iff.mpr hc),
          ih htail htail2]

theorem head_dropWhile_not (p : Char → Bool) (l : List Char) :
    ((l.dropWhile p).head?.all fun c => !p c) = true := by
  induction l with
  | nil => rfl
  | cons a l ih =>
    by_cases ha : p a
    · rw [List.dropWhile_cons, if_pos ha]
      exact ih
    · rw [List.dropWhile_cons, if_neg ha]
      simpa using Bool.eq_false_iff.mpr ha

theorem dropWhile_eq_self_of_head (p : Char → Bool) (l : List Char)
    (h : (l.head?.all fun c => !p c) = true) : l.dropWhile p = l := by
  cases l with
  | nil => rfl
  | cons a l =>
    simp only [List.head?_cons, Option.all_some, Bool.not_eq_true'] at h
    rw [List.dropWhile_cons, if_neg (by simp [h])]

theorem trimStr_getLast (s : List Char) :
    ((trimStr s).getLast?.all fun c => !c.isWhitespace) = true := by
  unfold trimStr
  rw [List.getLast?_reverse]
  exact head_dropWhile_not Char.isWhitespace _

theorem trimStr_head (s : List Char) :
    ((trimStr s).head?.all fun c => !c.isWhitespace) = true := by
  unfold trimStr
  rw [List.head?_reverse]
  cases hZ : (s.dropWhile Char.isWhitespace).reverse.dropWhile Char.isWhitespace with
  | nil => rfl
  | cons b Z2 =>
    have hsuf : (b :: Z2) <:+ (s.dropWhile Char.isWhitespace).reverse := by
      rw [← hZ]
      exact List.dropWhile_suffix _
    obtain ⟨t, ht⟩ := hsuf
    have : ((b :: Z2) : List Char).getLast? =
        ((s.dropWhile Char.isWhitespace).reverse).getLast? := by
      rw [← ht, List.getLast?_append_of_ne_nil t (by simp)]
    rw [this, List.getLast?_reverse]
    exact head_dropWhile_not Char.isWhitespace s

theorem trimStr_infix (s : List Char) : trimStr s <:+: s := by
  have h1 : s.dropWhile Char.isWhitespace <:+ s := List.dropWhile_suffix _
  have h2 : (s.dropWhile Char.isWhitespace).reverse.dropWhile Char.isWhitespace
      <:+ (s.dropWhile Char.isWhitespace).reverse := List.dropWhile_suffix _
  have h3 : trimStr s <+: s.dropWhile Char.isWhitespace := by
    unfold trimStr
    have := List.reverse_prefix.mpr h2
    rwa [List.reverse_reverse] at this
  exact h3.isInfix.trans h1.isInfix

theorem noAdjWs_append_left (m u : List Char)
    (h : noAdjWs (m ++ u) = true) : noAdjWs m = true := by
  induction m with
  | nil => rfl
  | cons a m ih =>
    cases m with
    | nil => rfl
    | cons b m2 =>
      rw [List.cons_append, List.cons_append] at h
      unfold noAdjWs at h ⊢
      rw [Bool.and_eq_true] at h ⊢
      refine ⟨h.1, ?_⟩
      exact ih (by rw [List.cons_append]; exact h.2)

theorem noAdjWs_append_right (t x : List Char)
    (h : noAdjWs (t ++ x) = true) : noAdjWs x = true := by
  induction t with
  | nil => exact h
  | cons a t ih =>
    rw [List.cons_append] at h
    exact ih (noAdjWs_tail a _ h)

theorem noAdjWs_infix (l m : List Char) (hl : noAdjWs l = true)
    (hm : m <:+: l) : noAdjWs m = true := by
  obtain ⟨t, u, htu⟩ := hm
  subst htu
  exact noAdjWs_append_left m u
    (noAdjWs_append_right t (m ++ u) (by rwa [List.append_assoc] at hl))

theorem allWsSpace_infix (l m : List Char) (hl : allWsSpace l = true)
    (hm : m <:+: l) : allWsSpace m = true := by
  unfold allWsSpace at hl ⊢
  rw [List.all_eq_true] at hl ⊢
  exact fun c hc => hl c (hm.sublist.subset hc)

theorem trimStr_eq_self (l : List Char)
    (hh : (l.head?.all fun c => !c.isWhitespace) = true)
    (hl : (l.getLast?.all fun c => !c.isWhitespace) = true) :
    trimStr l = l := by
  unfold trimStr
  rw [dropWhile_eq_self_of_head Char.isWhitespace l hh,
    dropWhile_eq_self_of_head Char.isWhitespace l.reverse
      (by rw [List.head?_reverse]; exact hl),
    List.reverse_reverse]

/-- C8: `clean_text` (the normalizer) is idempotent, and its output has no
run of more than one whitespace character and no leading or trailing
whitespace. -/
theorem clean_text_idempotent_clean (s : List Char) :
    clean_text (clean_text s) = clean_text s ∧
    cleanShaped (clean_text s) = true := by
  obtain ⟨hadj0, hall0⟩ := collapseWs_clean s
  have hinf : trimStr (collapseWs s) <:+: collapseWs s := trimStr_infix _
  have hadj : noAdjWs (trimStr (collapseWs s)) = true :=
    noAdjWs_infix _ _ hadj0 hinf
  have hall : allWsSpace (trimStr (collapseWs s)) = true :=
    allWsSpace_infix _ _ hall0 hinf
  have hh := trimStr_head (collapseWs s)
  have hl := trimStr_getLast (collapseWs s)
  constructor
  · show trimStr (collapseWs (trimStr (collapseWs s))) = trimStr (collapseWs s)
    rw [collapseWs_id _ hadj hall]
    exact trimStr_eq_self _ hh hl
  · unfold cleanShaped
    rw [Bool.and_eq_true, Bool.and_eq_true]
    exact ⟨⟨hadj, hh⟩, hl⟩

/-! ### Claim theorems about ingestion and query orchestration -/

/-- C4: after every successful `add_pdf_document(pdf_path, output_path)`,
the document store maps `pdf_path` to the empty string regardless of the
extracted text; the extracted (cleaned) text goes only to the output file.
Other store entries are untouched. -/
theorem add_pdf_stores_placeholder (sys : RAGSystem) (fs : FS)
    (pdf output : String) (content : List Char) :
    (add_pdf_document sys fs pdf output (.ok content) true true).1 =
      .ok () ∧
    (add_pdf_document sys fs pdf output
      (.ok content) true true).2.1.document_store pdf = some [] ∧
    (add_pdf_document sys fs pdf output
      (.ok content) true true).2.1.processed_text_path = some output ∧
    (add_pdf_document sys fs pdf output
      (.ok content) true true).2.2 output = some (clean_text content) := by
  refine ⟨rfl, ?_, rfl, ?_⟩
  · show mapInsert sys.document_store pdf [] pdf = some []
    unfold mapInsert
    rw [if_pos rfl]
  · show mapInsert (mapInsert fs output []) output (clean_text content)
      output = some (clean_text content)
    unfold mapInsert
    rw [if_pos rfl]

/-- Witness for C4 at concrete inputs. -/
theorem add_pdf_stores_placeholder_witness :
    (add_pdf_document RAGSystem.new (fun _ => none) "pdfs/rag.pdf"
      "bin/processed.txt" (.ok "Some  text".data) true true).1 = .ok () ∧
    (add_pdf_document RAGSystem.new (fun _ => none) "pdfs/rag.pdf"
      "bin/processed.txt" (.ok "Some  text".data) true
      true).2.1.document_store "pdfs/rag.pdf" = some [] ∧
    (add_pdf_document RAGSystem.new (fun _ => none) "pdfs/rag.pdf"
      "bin/processed.txt" (.ok "Some  text".data) true
      true).2.1.processed_text_path = some "bin/processed.txt" ∧
    (add_pdf_document RAGSystem.new (fun _ => none) "pdfs/rag.pdf"
      "bin/processed.txt" (.ok "Some  text".data) true
      true).2.2 "bin/processed.txt" = some (clean_text "Some  text".data) :=
  add_pdf_stores_placeholder RAGSystem.new (fun _ => none) "pdfs/rag.pdf"
    "bin/processed.txt" "Some  text".data

/-- C9: whenever `add_pdf_document` returns an error (extraction failure,
output-file creation failure, or write failure), the session state is
unchanged: the document store and the processed-text handle hold exactly
the values held before the call. -/
theorem add_pdf_error_preserves_session (sys : RAGSystem) (fs : FS)
    (pdf output : String) (extract : Except String (List Char))
    (createOk writeOk : Bool) (e : AddError)
    (h : (add_pdf_document sys fs pdf output extract createOk writeOk).1 =
      .error e) :
    (add_pdf_document sys fs pdf output extract createOk writeOk).2.1 =
      sys := by
  cases extract with
  | error msg => rfl
  | ok content =>
    cases createOk with
    | false => rfl
    | true =>
      cases writeOk with
      | false => rfl
      | true => cases h

/-- Witness for C9: a failing extraction leaves a concrete session
unchanged. -/
theorem add_pdf_error_preserves_session_witness :
    (add_pdf_document
      { document_store := fun _ => none,
        processed_text_path := some "old.txt" }
      (fun _ => none) "pdfs/rag.pdf" "bin/processed.txt"
      (.error "no such file") true true).2.1 =
      { document_store := fun _ => none,
        processed_text_path := some "old.txt" } :=
  add_pdf_error_preserves_session
    { document_store := fun _ => none, processed_text_path := some "old.txt" }
    (fun _ => none) "pdfs/rag.pdf" "bin/processed.txt"
    (.error "no such file") true true .extractionFailed rfl

/-- C10: on the success path of `process_query`, the message sent to the
chat backend is exactly the raw query when the retrieved context is empty,
and exactly "Context: {context}\n\nQuestion: {query}" when it is
non-empty. Quantifying over the chat oracle `chatFn` makes the statement
about the message actually sent. -/
theorem process_query_message (query : List Char) (pdf : String) (fs : FS)
    (content : List Char) (chatFn : List Char → List Char)
    (ctx : List Char)
    (hctx : retrieveFromContent (clean_text content) query = some ctx) :
    process_query query pdf fs (.ok content) true true chatFn =
      .ok (chatFn (if ctx.isEmpty then query
        else "Context: ".data ++ ctx ++ "\n\nQuestion: ".data ++ query)) := by
  have hread : mapInsert (mapInsert fs "bin/processed.txt" [])
      "bin/processed.txt" (clean_text content) "bin/processed.txt" =
      some (clean_text content) := by
    unfold mapInsert
    rw [if_pos rfl]
  have hret : retrieve
      { document_store := mapInsert RAGSystem.new.document_store pdf [],
        processed_text_path := some "bin/processed.txt" }
      (mapInsert (mapInsert fs "bin/processed.txt" [])
        "bin/processed.txt" (clean_text content)) query =
      .ok (retrieveFromContent (clean_text content) query) := by
    show (match mapInsert (mapInsert fs "bin/processed.txt" [])
        "bin/processed.txt" (clean_text content) "bin/processed.txt" with
      | none => Except.error RetrieveError.readFailed
      | some c => Except.ok (retrieveFromContent c query))
      = Except.ok (retrieveFromContent (clean_text content) query)
    rw [hread]
  unfold process_query
  show (match retrieve
      { document_store := mapInsert RAGSystem.new.document_store pdf [],
        processed_text_path := some "bin/processed.txt" }
      (mapInsert (mapInsert fs "bin/processed.txt" [])
        "bin/processed.txt" (clean_text content)) query with
    | Except.error e => Except.error (PQError.retrieveFailed e)
    | Except.ok none => Except.error PQError.sliceFault
    | Except.ok (some context) =>
      Except.ok (chatFn (if context.isEmpty then query
        else "Context: ".data ++ context ++ "\n\nQuestion: ".data ++ query)))
    = _
  rw [hret, hctx]

/-- Witness for C10 on Scenario-A-style content, where the retrieved
context is the full content and the composed prompt is sent. -/
theorem process_query_message_witness :
    process_query "Michael".data "pdfs/rag.pdf" (fun _ => none)
      (.ok "Michael Harditya is a student.".data) true true id =
      .ok (id (if ("Michael Harditya is a student.".data : List Char).isEmpty
        then "Michael".data
        else "Context: ".data ++ "Michael Harditya is a student.".data ++
          "\n\nQuestion: ".data ++ "Michael".data)) :=
  process_query_message "Michael".data "pdfs/rag.pdf" (fun _ => none)
    "Michael Harditya is a student.".data id
    "Michael Harditya is a student.".data (by decide)
